import Mathlib

/-!
Shallow embedding of `src/value.rs` from micrograd-rs.

The Rust code stores graph nodes as `Rc<RefCell<Value>>`; node identity is
pointer identity.  We model the heap of nodes as an arena `List Value` and a
`Handle`/`ValueRef` as an index into it, so identity is index equality, which
matches the `HashSet<*const RefCell<Value>>` used by `build_topo`.  Every
construction function appends a fresh node and returns its index together with
the grown arena, mirroring `Rc::new(RefCell::new(Value { .. }))`.

Scalars (`f64` in the source) are modelled as `ℚ`; all numbers appearing in
the repository's tests and in the claims (1.5, 4.0, -1.0, …) are exactly
representable binary doubles on which `f64` arithmetic is exact, so the
rational model computes the same results there.  The `powf` exponent is
modelled as an integer (`zpow`); the only exponent the source ever passes is
`-1.0`.

The per-node boxed closure `backward: Box<dyn FnMut(f64)>` is modelled as a
first-order tag `BwdRule` recording exactly what each closure captured:
`Add`'s closure captured the two parent handles; `Mul`'s captured the two
parent handles and re-reads their `data` at invocation time; `relu`'s
captured one parent handle plus a snapshot `self_data`; the default closure
`|_| {}` is `noop`.  `Neg` and `pow` in the source build their result via
`ValueRef::new`, so they get `noop` and an empty parent list — the model
reproduces that faithfully.
-/

namespace Micrograd

/-- Tag describing the gradient-propagation closure bound to a node, with the
data the Rust closure captured. -/
inductive BwdRule : Type where
  | noop : BwdRule
  | addB : Nat → Nat → BwdRule
  | mulB : Nat → Nat → BwdRule
  | reluB : Nat → ℚ → BwdRule
deriving DecidableEq

/-- The `Value` struct of `value.rs`: scalar data, accumulated gradient,
operation tag, parent handles, and the bound propagation rule. -/
structure Value : Type where
  data : ℚ
  grad : ℚ
  operation : String
  parents : List Nat
  bwd : BwdRule
deriving DecidableEq

instance : Inhabited Value := ⟨⟨0, 0, "", [], BwdRule.noop⟩⟩

/-- Dereference a handle: read the node stored at index `i` of the arena
(out-of-range indices yield the default node; they never occur in graphs
built by the constructors). -/
def getNode : List Value → Nat → Value
  | [], _ => default
  | v :: _, 0 => v
  | _ :: rest, n + 1 => getNode rest n

/-- Replace the `grad` field of the node at index `i` (helper for
`set_grad`); indices past the end leave the arena unchanged. -/
def setGradAt : List Value → Nat → ℚ → List Value
  | [], _, _ => []
  | v :: rest, 0, g => { v with grad := g } :: rest
  | v :: rest, n + 1, g => v :: setGradAt rest n g

/-- `ValueRef::set_grad`: `self.inner.borrow_mut().grad = new_grad`. -/
def set_grad (env : List Value) (i : Nat) (g : ℚ) : List Value :=
  setGradAt env i g

/-- `ValueRef::add_to_grad`: reads the current grad, then stores
`grad + sum_to_grad`. -/
def add_to_grad (env : List Value) (i : Nat) (s : ℚ) : List Value :=
  set_grad env i ((getNode env i).grad + s)

mutual

/-- `build_topo`: depth-first post-order over parent edges with an
identity-keyed visited set.  State is `(visited, topo)`.  The fuel argument
makes the recursion total; parents of a constructed node always have smaller
indices, so from node `i` the recursion depth is at most `i + 1` and any fuel
of at least `i + 1` computes the same result as the source's unfueled
recursion. -/
def build_topo (env : List Value) :
    Nat → Nat → List Nat × List Nat → List Nat × List Nat
  | 0, _, s => s
  | fuel + 1, i, s =>
    if i ∈ s.1 then s
    else
      ((buildTopoList env fuel (getNode env i).parents (i :: s.1, s.2)).1,
       (buildTopoList env fuel (getNode env i).parents (i :: s.1, s.2)).2 ++ [i])
  termination_by fuel i s => (fuel, 0)

/-- The `for parent_rc in &value_ref.inner.borrow().parents` loop inside
`build_topo`, recursing into each parent in order. -/
def buildTopoList (env : List Value) :
    Nat → List Nat → List Nat × List Nat → List Nat × List Nat
  | _, [], s => s
  | fuel, p :: ps, s => buildTopoList env fuel ps (build_topo env fuel p s)
  termination_by fuel ps s => (fuel, ps.length + 1)

end

/-- `ValueRef::getparents_topo_sort`: run `build_topo` from `root` with empty
visited set and empty topo list.  Fuel `root + 1` is exact for every arena
built by the constructors below (parents have smaller indices). -/
def getparents_topo_sort (env : List Value) (root : Nat) : List Nat :=
  (build_topo env (root + 1) root ([], [])).2

/-- `ValueRef::clear_grads`: set every node of the topological order to
grad 0, in order. -/
def clear_grads (env : List Value) (root : Nat) : List Value :=
  (getparents_topo_sort env root).foldl (fun e i => set_grad e i 0) env

/-- Invoke a propagation closure with upstream gradient `g`, exactly as the
Rust closures do: `addB` adds `g` into both captured parents; `mulB` reads the
parents' current `data` and cross-multiplies; `reluB` routes `g` iff the
captured snapshot `self_data` is positive; `noop` does nothing. -/
def runBwd (env : List Value) (rule : BwdRule) (g : ℚ) : List Value :=
  match rule with
  | BwdRule.noop => env
  | BwdRule.addB a b => add_to_grad (add_to_grad env a g) b g
  | BwdRule.mulB a b =>
      let ad := (getNode env a).data
      let bd := (getNode env b).data
      add_to_grad (add_to_grad env a (bd * g)) b (ad * g)
  | BwdRule.reluB a sd => add_to_grad env a (if 0 < sd then g else 0)

/-- One iteration of the loop in `ValueRef::backward`: read the node's
current grad, then invoke its bound closure with it. -/
def bwdStep (e : List Value) (i : Nat) : List Value :=
  runBwd e (getNode e i).bwd (getNode e i).grad

/-- `ValueRef::backward`: `clear_grads`, seed the root's grad with 1.0,
recompute the topological order, iterate it in reverse invoking each node's
closure with its current grad. -/
def backward (env : List Value) (root : Nat) : List Value :=
  let e1 := clear_grads env root
  let e2 := set_grad e1 root 1
  ((getparents_topo_sort e2 root).reverse).foldl bwdStep e2

/-- `Value::new` / `ValueRef::new` / `From<f64>`: fresh leaf node with
grad 0, empty operation tag, no parents, no-op closure.  Returns the new
handle and the grown arena. -/
def valueNew (env : List Value) (x : ℚ) : Nat × List Value :=
  (env.length, env ++ [⟨x, 0, "", [], BwdRule.noop⟩])

/-- `Neg for &ValueRef`: `ValueRef::new(-self.inner.borrow().data)` — note
the source builds a *fresh disconnected node*: no parents, no closure. -/
def negOp (env : List Value) (a : Nat) : Nat × List Value :=
  valueNew env (-(getNode env a).data)

/-- `ValueRef::pow`: `ValueRef::new(self.inner.borrow().data.powf(exp))` —
again a fresh disconnected node: no parents, no closure. -/
def powOp (env : List Value) (a : Nat) (e : ℤ) : Nat × List Value :=
  valueNew env ((getNode env a).data ^ e)

/-- `Add for &ValueRef`: node with summed data, parents `[a, b]`, tag "+",
and a closure adding `g` into both parents. -/
def addOp (env : List Value) (a b : Nat) : Nat × List Value :=
  (env.length,
   env ++ [⟨(getNode env a).data + (getNode env b).data, 0, "+", [a, b],
            BwdRule.addB a b⟩])

/-- `Mul for &ValueRef`: node with multiplied data, parents `[a, b]`,
tag "*", and a closure adding `b.data * g` into `a` and `a.data * g` into
`b` (data read at invocation time). -/
def mulOp (env : List Value) (a b : Nat) : Nat × List Value :=
  (env.length,
   env ++ [⟨(getNode env a).data * (getNode env b).data, 0, "*", [a, b],
            BwdRule.mulB a b⟩])

/-- `ValueRef::relu`: data is `self_data` if positive else 0, parent `[a]`,
tag "ReLU", closure routing `g` iff the captured `self_data` is positive. -/
def reluOp (env : List Value) (a : Nat) : Nat × List Value :=
  (env.length,
   env ++ [⟨if 0 < (getNode env a).data then (getNode env a).data else 0, 0,
            "ReLU", [a], BwdRule.reluB a (getNode env a).data⟩])

/-- `Sub for &ValueRef`: `self + &(-rhs)` — negate `b`, then add. -/
def subOp (env : List Value) (a b : Nat) : Nat × List Value :=
  let r := negOp env b
  addOp r.2 a r.1

/-- `Div for &ValueRef`: `self * &(rhs.pow(-1.0))` — reciprocal of `b`,
then multiply. -/
def divOp (env : List Value) (a b : Nat) : Nat × List Value :=
  let r := powOp env b (-1)
  mulOp r.2 a r.1

/-- `PartialEq for Value`: `self.data == rhs.data` — compares only the
`data` field. -/
def valueEq (v w : Value) : Bool :=
  v.data == w.data

/-- Well-formedness of an arena: every parent handle points strictly below
its child.  Every arena produced by the constructors above satisfies this;
it is the acyclicity invariant of the computation graph. -/
def WF (env : List Value) : Prop :=
  ∀ i, i < env.length → ∀ p ∈ (getNode env i).parents, p < i

instance (env : List Value) : Decidable (WF env) := by
  unfold WF; infer_instance

/-- Reachability along parent edges (reflexive-transitive). -/
inductive Reach (env : List Value) : Nat → Nat → Prop where
  | refl (i : Nat) : Reach env i i
  | step {i p j : Nat} : p ∈ (getNode env i).parents → Reach env p j →
      Reach env i j

/-- The closure bound to each node touches only the node's parents.  True of
every node the constructors build (for `noop` nodes the target list is
empty). -/
def bwdTargets : BwdRule → List Nat
  | BwdRule.noop => []
  | BwdRule.addB a b => [a, b]
  | BwdRule.mulB a b => [a, b]
  | BwdRule.reluB a _ => [a]

/-- Arena invariant: every bound closure's targets are among the node's
parents. -/
def GoodEnv (env : List Value) : Prop :=
  ∀ i, i < env.length →
    ∀ t ∈ bwdTargets (getNode env i).bwd, t ∈ (getNode env i).parents

instance (env : List Value) : Decidable (GoodEnv env) := by
  unfold GoodEnv; infer_instance

/-- Two arenas with identical parent structure (the only thing grad updates
can never change). -/
def parentsEq (e1 e2 : List Value) : Prop :=
  ∀ j, (getNode e1 j).parents = (getNode e2 j).parents

/-- Invariant of the `(visited, topo)` state threaded through `build_topo`:
the emitted list has no duplicates, emitted nodes are visited, everything
reachable from an emitted node is visited, and every emitted node's parents
appear strictly before it in the emitted list. -/
def Inv (env : List Value) (s : List Nat × List Nat) : Prop :=
  s.2.Nodup ∧
  (∀ x ∈ s.2, x ∈ s.1) ∧
  (∀ x ∈ s.2, ∀ j, Reach env x j → j ∈ s.1) ∧
  (∀ l1 x l2, s.2 = l1 ++ x :: l2 → ∀ p ∈ (getNode env x).parents, p ∈ l1)

/-- Hypothesis on grey nodes (visited but not yet emitted: the current DFS
call stack) when `build_topo` is entered at node `i`: each grey node reaches
`i` and lies strictly above it. -/
def GreyH (env : List Value) (i : Nat) (s : List Nat × List Nat) : Prop :=
  ∀ x, x ∈ s.1 → x ∉ s.2 → Reach env x i ∧ i < x

/-- Postcondition of one `build_topo` call: the topo list grows by a block
`d` of previously unvisited nodes, all reachable from `i`; the visited set
grows by exactly that block; everything reachable from `i` ends up visited;
and the state invariant is preserved. -/
def BTPost (env : List Value) (i : Nat)
    (s out : List Nat × List Nat) : Prop :=
  ∃ d, out.2 = s.2 ++ d ∧
    (∀ x, x ∈ out.1 ↔ x ∈ s.1 ∨ x ∈ d) ∧
    (∀ x ∈ d, x ∉ s.1) ∧
    i ∈ out.1 ∧
    (∀ x ∈ d, Reach env i x) ∧
    (∀ j, Reach env i j → j ∈ out.1) ∧
    Inv env out

/-- Postcondition of the parent loop `buildTopoList` over the handle list
`ps`. -/
def BTLPost (env : List Value) (ps : List Nat)
    (s out : List Nat × List Nat) : Prop :=
  ∃ d, out.2 = s.2 ++ d ∧
    (∀ x, x ∈ out.1 ↔ x ∈ s.1 ∨ x ∈ d) ∧
    (∀ x ∈ d, x ∉ s.1) ∧
    (∀ p ∈ ps, p ∈ out.1) ∧
    (∀ x ∈ d, ∃ p ∈ ps, Reach env p x) ∧
    (∀ p ∈ ps, ∀ j, Reach env p j → j ∈ out.1) ∧
    Inv env out

/-! ### Concrete arenas used to instantiate the theorems -/

/-- Leaf `a = 2`, then `n = -a` (index 1). -/
def negEnv : List Value := (negOp (valueNew [] 2).2 0).2

/-- Leaf `a = 2`, then `p = a.pow(3)` (index 1). -/
def powEnv : List Value := (powOp (valueNew [] 2).2 0 3).2

/-- Leaves `a = 3` (index 0) and `b = 2` (index 1). -/
def abEnv : List Value := (valueNew (valueNew [] 3).2 2).2

/-- `a - b` over `abEnv`: the Neg node lands at index 2, the Add node at
index 3. -/
def subEnv : List Value := (subOp abEnv 0 1).2

/-- `a / b` over `abEnv`: the Pow node lands at index 2, the Mul node at
index 3. -/
def divEnv : List Value := (divOp abEnv 0 1).2

/-- `a - a` over `abEnv` (Neg at 2, Add at 3). -/
def subSelfEnv : List Value := (subOp abEnv 0 0).2

/-- `a / a` over `abEnv` (Pow at 2, Mul at 3). -/
def divSelfEnv : List Value := (divOp abEnv 0 0).2

/-- The end-to-end scenario: leaves `x=2` (0), `w=1` (1), `b=3` (2),
`i=3/2` (3), `j=4` (4); then `x*w` (5), `y = x*w + b` (6), `i*j` (7),
`x*x` (8), `k = i*j + x*x` (9), `result = k*y` (10). -/
def scEnv0 : List Value := (valueNew [] 2).2
def scEnv1 : List Value := (valueNew scEnv0 1).2
def scEnv2 : List Value := (valueNew scEnv1 3).2
def scEnv3 : List Value := (valueNew scEnv2 (3 / 2)).2
def scEnv4 : List Value := (valueNew scEnv3 4).2
def scEnv5 : List Value := (mulOp scEnv4 0 1).2
def scEnv6 : List Value := (addOp scEnv5 5 2).2
def scEnv7 : List Value := (mulOp scEnv6 3 4).2
def scEnv8 : List Value := (mulOp scEnv7 0 0).2
def scEnv9 : List Value := (addOp scEnv8 7 8).2
def scEnv : List Value := (mulOp scEnv9 9 6).2

/-- Witness arena for the backward theorem: leaves 1 and 2, then their sum
at index 2. -/
def bwEnv : List Value := (addOp (valueNew (valueNew [] 1).2 2).2 0 1).2

/-- Witness arena for the topological sort: two distinct leaves holding the
same number 1 (indices 0 and 1), the self-sum `0 + 0` (index 2), and the
root `2 + 1` (index 3). -/
def tsEnv : List Value :=
  (addOp (addOp (valueNew (valueNew [] 1).2 1).2 0 0).2 2 1).2

/-- Witness arena for gradient reset: two nodes carrying stale nonzero
grads, the second a self-sum of the first. -/
def rgEnv : List Value :=
  [⟨1, 5, "", [], BwdRule.noop⟩, ⟨2, 7, "+", [0, 0], BwdRule.addB 0 0⟩]

/-! ### Basic lemmas about arena access and grad updates -/

theorem getNode_out (env : List Value) (i : Nat) (h : env.length ≤ i) :
    getNode env i = default := by
  induction env generalizing i with
  | nil => cases i <;> rfl
  | cons v rest ih =>
    cases i with
    | zero => simp at h
    | succ n => exact ih n (Nat.le_of_succ_le_succ h)

theorem set_grad_length (env : List Value) (i : Nat) (g : ℚ) :
    (set_grad env i g).length = env.length := by
  unfold set_grad
  induction env generalizing i with
  | nil => rfl
  | cons v rest ih =>
    cases i with
    | zero => rfl
    | succ n => simpa [setGradAt] using ih n

theorem set_grad_out (env : List Value) (i : Nat) (g : ℚ)
    (h : env.length ≤ i) : set_grad env i g = env := by
  unfold set_grad
  induction env generalizing i with
  | nil => rfl
  | cons v rest ih =>
    cases i with
    | zero => simp at h
    | succ n => simpa [setGradAt] using ih n (Nat.le_of_succ_le_succ h)

theorem getNode_set_grad_ne (env : List Value) (i j : Nat) (g : ℚ)
    (h : j ≠ i) : getNode (set_grad env i g) j = getNode env j := by
  unfold set_grad
  induction env generalizing i j with
  | nil => rfl
  | cons v rest ih =>
    cases i with
    | zero =>
      cases j with
      | zero => exact absurd rfl h
      | succ m => rfl
    | succ n =>
      cases j with
      | zero => rfl
      | succ m =>
        simpa [setGradAt, getNode] using ih n m (fun he => h (by rw [he]))

theorem getNode_set_grad_self (env : List Value) (i : Nat) (g : ℚ)
    (h : i < env.length) :
    getNode (set_grad env i g) i = { getNode env i with grad := g } := by
  unfold set_grad
  induction env generalizing i with
  | nil => simp at h
  | cons v rest ih =>
    cases i with
    | zero => rfl
    | succ n => simpa [setGradAt, getNode] using ih n (Nat.lt_of_succ_lt_succ h)

theorem set_grad_data (env : List Value) (i : Nat) (g : ℚ) (j : Nat) :
    (getNode (set_grad env i g) j).data = (getNode env j).data := by
  by_cases hj : j = i
  · subst hj
    by_cases hl : j < env.length
    · rw [getNode_set_grad_self env j g hl]
    · rw [set_grad_out env j g (Nat.le_of_not_lt hl)]
  · rw [getNode_set_grad_ne env i j g hj]

theorem set_grad_parents (env : List Value) (i : Nat) (g : ℚ) (j : Nat) :
    (getNode (set_grad env i g) j).parents = (getNode env j).parents := by
  by_cases hj : j = i
  · subst hj
    by_cases hl : j < env.length
    · rw [getNode_set_grad_self env j g hl]
    · rw [set_grad_out env j g (Nat.le_of_not_lt hl)]
  · rw [getNode_set_grad_ne env i j g hj]

theorem set_grad_bwd (env : List Value) (i : Nat) (g : ℚ) (j : Nat) :
    (getNode (set_grad env i g) j).bwd = (getNode env j).bwd := by
  by_cases hj : j = i
  · subst hj
    by_cases hl : j < env.length
    · rw [getNode_set_grad_self env j g hl]
    · rw [set_grad_out env j g (Nat.le_of_not_lt hl)]
  · rw [getNode_set_grad_ne env i j g hj]

theorem set_grad_grad_ne (env : List Value) (i j : Nat) (g : ℚ)
    (h : j ≠ i) :
    (getNode (set_grad env i g) j).grad = (getNode env j).grad := by
  rw [getNode_set_grad_ne env i j g h]

theorem set_grad_grad_self (env : List Value) (i : Nat) (g : ℚ)
    (h : i < env.length) : (getNode (set_grad env i g) i).grad = g := by
  rw [getNode_set_grad_self env i g h]

theorem add_to_grad_data (env : List Value) (i : Nat) (s : ℚ) (j : Nat) :
    (getNode (add_to_grad env i s) j).data = (getNode env j).data :=
  set_grad_data env i _ j

theorem add_to_grad_parents (env : List Value) (i : Nat) (s : ℚ) (j : Nat) :
    (getNode (add_to_grad env i s) j).parents = (getNode env j).parents :=
  set_grad_parents env i _ j

theorem add_to_grad_bwd (env : List Value) (i : Nat) (s : ℚ) (j : Nat) :
    (getNode (add_to_grad env i s) j).bwd = (getNode env j).bwd :=
  set_grad_bwd env i _ j

theorem add_to_grad_length (env : List Value) (i : Nat) (s : ℚ) :
    (add_to_grad env i s).length = env.length :=
  set_grad_length env i _

theorem add_to_grad_grad_ne (env : List Value) (i j : Nat) (s : ℚ)
    (h : j ≠ i) :
    (getNode (add_to_grad env i s) j).grad = (getNode env j).grad :=
  set_grad_grad_ne env i j _ h

theorem add_to_grad_grad_self (env : List Value) (i : Nat) (s : ℚ)
    (h : i < env.length) :
    (getNode (add_to_grad env i s) i).grad = (getNode env i).grad + s :=
  set_grad_grad_self env i _ h

/-! ### `runBwd` touches only grads, and only at its rule's targets -/

theorem runBwd_data (env : List Value) (rule : BwdRule) (g : ℚ) (j : Nat) :
    (getNode (runBwd env rule g) j).data = (getNode env j).data := by
  cases rule <;> simp [runBwd, add_to_grad_data]

theorem runBwd_parents (env : List Value) (rule : BwdRule) (g : ℚ)
    (j : Nat) :
    (getNode (runBwd env rule g) j).parents = (getNode env j).parents := by
  cases rule <;> simp [runBwd, add_to_grad_parents]

theorem runBwd_bwd (env : List Value) (rule : BwdRule) (g : ℚ) (j : Nat) :
    (getNode (runBwd env rule g) j).bwd = (getNode env j).bwd := by
  cases rule <;> simp [runBwd, add_to_grad_bwd]

theorem runBwd_length (env : List Value) (rule : BwdRule) (g : ℚ) :
    (runBwd env rule g).length = env.length := by
  cases rule <;> simp [runBwd, add_to_grad_length]

theorem runBwd_grad_not_target (env : List Value) (rule : BwdRule) (g : ℚ)
    (j : Nat) (h : j ∉ bwdTargets rule) :
    (getNode (runBwd env rule g) j).grad = (getNode env j).grad := by
  cases rule with
  | noop => rfl
  | addB a b =>
    simp [bwdTargets] at h
    simp [runBwd, add_to_grad_grad_ne _ _ _ _ h.2,
      add_to_grad_grad_ne _ _ _ _ h.1]
  | mulB a b =>
    simp [bwdTargets] at h
    simp [runBwd, add_to_grad_grad_ne _ _ _ _ h.2,
      add_to_grad_grad_ne _ _ _ _ h.1]
  | reluB a sd =>
    simp [bwdTargets] at h
    simp [runBwd, add_to_grad_grad_ne _ _ _ _ h]

/-! ### The DFS depends only on the parent structure -/

theorem build_topo_congr_aux (e1 e2 : List Value) (h : parentsEq e1 e2) :
    ∀ fuel : Nat,
      (∀ i s, build_topo e1 fuel i s = build_topo e2 fuel i s) ∧
      (∀ ps s, buildTopoList e1 fuel ps s = buildTopoList e2 fuel ps s) := by
  intro fuel
  induction fuel with
  | zero =>
    refine ⟨fun i s => by simp [build_topo], fun ps s => ?_⟩
    induction ps generalizing s with
    | nil => simp [buildTopoList]
    | cons p ps ih => simpa [buildTopoList, build_topo] using ih _
  | succ f ih =>
    have hbt : ∀ i s, build_topo e1 (f + 1) i s = build_topo e2 (f + 1) i s := by
      intro i s
      by_cases hi : i ∈ s.1
      · simp [build_topo, hi]
      · simp only [build_topo, hi, if_false]
        rw [h i, ih.2]
    refine ⟨hbt, fun ps s => ?_⟩
    induction ps generalizing s with
    | nil => simp [buildTopoList]
    | cons p ps ihps => simp only [buildTopoList]; rw [hbt p s]; exact ihps _

theorem build_topo_congr (e1 e2 : List Value) (h : parentsEq e1 e2)
    (fuel i : Nat) (s : List Nat × List Nat) :
    build_topo e1 fuel i s = build_topo e2 fuel i s :=
  (build_topo_congr_aux e1 e2 h fuel).1 i s

theorem getparents_topo_sort_congr (e1 e2 : List Value) (h : parentsEq e1 e2)
    (root : Nat) :
    getparents_topo_sort e1 root = getparents_topo_sort e2 root := by
  unfold getparents_topo_sort
  rw [build_topo_congr e1 e2 h]

/-! ### Reachability lemmas -/

theorem default_parents : (default : Value).parents = [] := rfl

theorem WF_all (env : List Value) (hW : WF env) :
    ∀ i, ∀ p ∈ (getNode env i).parents, p < i := by
  intro i p hp
  by_cases hl : i < env.length
  · exact hW i hl p hp
  · rw [getNode_out env i (Nat.le_of_not_lt hl), default_parents] at hp
    exact absurd hp (List.not_mem_nil p)

theorem reach_single (env : List Value) {i p : Nat}
    (h : p ∈ (getNode env i).parents) : Reach env i p :=
  Reach.step h (Reach.refl p)

theorem reach_trans (env : List Value) {i j k : Nat}
    (h1 : Reach env i j) (h2 : Reach env j k) : Reach env i k := by
  induction h1 with
  | refl => exact h2
  | step hp _ ih => exact Reach.step hp (ih h2)

theorem reach_le (env : List Value)
    (hW : ∀ i, ∀ p ∈ (getNode env i).parents, p < i)
    {i j : Nat} (h : Reach env i j) : j ≤ i := by
  induction h with
  | refl => exact Nat.le_refl _
  | step hp _ ih => exact Nat.le_trans ih (Nat.le_of_lt (hW _ _ hp))

/-! ### The depth-first search invariant -/

theorem btl_nil (env : List Value) (fuel : Nat) (s : List Nat × List Nat) :
    buildTopoList env fuel [] s = s := by
  cases fuel <;> simp [buildTopoList]

theorem btl_cons (env : List Value) (fuel : Nat) (p : Nat) (ps : List Nat)
    (s : List Nat × List Nat) :
    buildTopoList env fuel (p :: ps) s =
      buildTopoList env fuel ps (build_topo env fuel p s) := by
  cases fuel <;> simp [buildTopoList]

/-- The set of grey nodes is unchanged across a call satisfying the growth
postconditions: the visited set and the topo list grow by the same block. -/
theorem grey_transfer (s out : List Nat × List Nat) (d : List Nat)
    (h1 : out.2 = s.2 ++ d)
    (h2 : ∀ x, x ∈ out.1 ↔ x ∈ s.1 ∨ x ∈ d)
    (h3 : ∀ x ∈ d, x ∉ s.1) :
    ∀ x, (x ∈ out.1 ∧ x ∉ out.2) ↔ (x ∈ s.1 ∧ x ∉ s.2) := by
  intro x
  constructor
  · rintro ⟨hv, ht⟩
    rw [h1] at ht
    simp only [List.mem_append, not_or] at ht
    rcases (h2 x).1 hv with hs | hd
    · exact ⟨hs, ht.1⟩
    · exact absurd hd ht.2
  · rintro ⟨hv, ht⟩
    refine ⟨(h2 x).2 (Or.inl hv), ?_⟩
    rw [h1]
    simp only [List.mem_append, not_or]
    exact ⟨ht, fun hd => h3 x hd hv⟩

/-- Splitting a decomposition of a snoc: `x` is either the appended last
element or sits inside the original list. -/
theorem snoc_decomp {α : Type} (T : List α) (a : α) (l1 : List α) (x : α)
    (l2 : List α) (h : T ++ [a] = l1 ++ x :: l2) :
    (l1 = T ∧ x = a ∧ l2 = []) ∨
      ∃ l2p, l2 = l2p ++ [a] ∧ T = l1 ++ x :: l2p := by
  rcases List.eq_nil_or_concat l2 with h2 | ⟨L, b, h2⟩
  · subst h2
    have hx : T ++ [a] = l1 ++ [x] := h
    have := List.append_inj' hx rfl
    refine Or.inl ⟨this.1.symm, ?_, rfl⟩
    have hax : [a] = [x] := this.2
    simpa using hax.symm
  · subst h2
    have hx : T ++ [a] = (l1 ++ x :: L) ++ [b] := by simp [h]
    have := List.append_inj' hx rfl
    have hab : a = b := by simpa using this.2
    exact Or.inr ⟨L, by simp [List.concat_eq_append, hab], this.1⟩

/-- Appending a node whose parents are all already emitted preserves the
parents-before-children ordering. -/
theorem inv_ord_snoc (env : List Value) (T : List Nat) (a : Nat)
    (hOrd : ∀ l1 x l2, T = l1 ++ x :: l2 →
      ∀ p ∈ (getNode env x).parents, p ∈ l1)
    (hpar : ∀ p ∈ (getNode env a).parents, p ∈ T) :
    ∀ l1 x l2, T ++ [a] = l1 ++ x :: l2 →
      ∀ p ∈ (getNode env x).parents, p ∈ l1 := by
  intro l1 x l2 hdec p hp
  rcases snoc_decomp T a l1 x l2 hdec with ⟨hl1, hx, -⟩ | ⟨L, _, hT⟩
  · subst hl1
    subst hx
    exact hpar p hp
  · exact hOrd l1 x L hT p hp

/-- Main specification of the depth-first search, proved by induction on the
fuel, mutually for `build_topo` and its parent loop. -/
theorem build_topo_spec (env : List Value)
    (hW : ∀ i, ∀ p ∈ (getNode env i).parents, p < i) :
    ∀ fuel : Nat,
      (∀ i s, i < fuel → Inv env s → GreyH env i s →
        BTPost env i s (build_topo env fuel i s)) ∧
      (∀ ps s, (∀ p ∈ ps, p < fuel) → Inv env s →
        (∀ x, x ∈ s.1 → x ∉ s.2 → ∀ p ∈ ps, Reach env x p ∧ p < x) →
        BTLPost env ps s (buildTopoList env fuel ps s)) := by
  intro fuel
  induction fuel with
  | zero =>
    constructor
    · intro i s hi
      exact absurd hi (Nat.not_lt_zero i)
    · intro ps s hps hInv _
      cases ps with
      | nil =>
        rw [btl_nil]
        exact ⟨[], by simp, fun x => by simp, by simp, by simp, by simp,
          by simp, hInv⟩
      | cons p ps => exact absurd (hps p (by simp)) (Nat.not_lt_zero p)
  | succ f ih =>
    have hbt : ∀ i s, i < f + 1 → Inv env s → GreyH env i s →
        BTPost env i s (build_topo env (f + 1) i s) := by
      intro i s hif hInv hGrey
      obtain ⟨hN, hTV, hCl, hOrd⟩ := hInv
      by_cases hi : i ∈ s.1
      · have hout : build_topo env (f + 1) i s = s := by
          simp [build_topo, hi]
        rw [hout]
        refine ⟨[], by simp, fun x => by simp, by simp, hi, by simp, ?_,
          hN, hTV, hCl, hOrd⟩
        intro j hr
        by_cases hit : i ∈ s.2
        · exact hCl i hit j hr
        · exact absurd (hGrey i hi hit).2 (Nat.lt_irrefl i)
      · have hout : build_topo env (f + 1) i s =
            ((buildTopoList env f (getNode env i).parents (i :: s.1, s.2)).1,
             (buildTopoList env f (getNode env i).parents
               (i :: s.1, s.2)).2 ++ [i]) := by
          simp [build_topo, hi]
        have hfuel : ∀ p ∈ (getNode env i).parents, p < f :=
          fun p hp => Nat.lt_of_lt_of_le (hW i p hp) (Nat.lt_succ_iff.mp hif)
        have hInvIn : Inv env (i :: s.1, s.2) :=
          ⟨hN, fun x hx => List.mem_cons_of_mem i (hTV x hx),
           fun x hx j hr => List.mem_cons_of_mem i (hCl x hx j hr), hOrd⟩
        have hGreyIn : ∀ x, x ∈ (i :: s.1, s.2).1 → x ∉ (i :: s.1, s.2).2 →
            ∀ p ∈ (getNode env i).parents, Reach env x p ∧ p < x := by
          intro x hxv hxt p hp
          rcases List.mem_cons.mp hxv with hxi | hxs
          · subst hxi
            exact ⟨reach_single env hp, hW x p hp⟩
          · obtain ⟨hrx, hix⟩ := hGrey x hxs hxt
            exact ⟨reach_trans env hrx (reach_single env hp),
              Nat.lt_trans (hW i p hp) hix⟩
        obtain ⟨d1, hO1, hO2, hO3, hO4, hO5, hO6, hInvF⟩ :=
          (ih.2) (getNode env i).parents (i :: s.1, s.2) hfuel hInvIn hGreyIn
        obtain ⟨hFN, hFTV, hFCl, hFOrd⟩ := hInvF
        set sF := buildTopoList env f (getNode env i).parents (i :: s.1, s.2)
          with hsF
        rw [hout]
        have hiInF : i ∈ sF.1 := (hO2 i).2 (Or.inl (List.mem_cons_self i s.1))
        have hO6i : ∀ j, Reach env i j → j ∈ sF.1 := by
          intro j hr
          cases hr with
          | refl => exact hiInF
          | step hp hr2 => exact hO6 _ hp _ hr2
        have hiNotTopoF : i ∉ sF.2 := by
          intro hmem
          rw [hO1] at hmem
          rcases List.mem_append.mp hmem with hms | hmd
          · exact hi (hTV i hms)
          · exact hO3 i hmd (List.mem_cons_self i s.1)
        have hparF : ∀ p ∈ (getNode env i).parents, p ∈ sF.2 := by
          intro p hp
          have hpv : p ∈ sF.1 := hO4 p hp
          by_contra hpt
          have hg := (grey_transfer (i :: s.1, s.2) sF d1 hO1 hO2 hO3 p).1
            ⟨hpv, hpt⟩
          rcases List.mem_cons.mp hg.1 with hpi | hps
          · exact Nat.lt_irrefl i (hpi ▸ hW i p hp)
          · obtain ⟨hrpi, hipx⟩ := hGrey p hps hg.2
            exact Nat.lt_irrefl i (Nat.lt_trans hipx (hW i p hp))
        refine ⟨d1 ++ [i], ?_, ?_, ?_, hiInF, ?_, hO6i, ?_, ?_, ?_, ?_⟩
        · show sF.2 ++ [i] = s.2 ++ (d1 ++ [i])
          rw [hO1]
          simp
        · intro x
          show x ∈ sF.1 ↔ x ∈ s.1 ∨ x ∈ d1 ++ [i]
          rw [hO2 x]
          simp only [List.mem_cons, List.mem_append, List.mem_singleton]
          tauto
        · intro x hx
          rcases List.mem_append.mp hx with hxd | hxi
          · intro hxs
            exact hO3 x hxd (List.mem_cons_of_mem i hxs)
          · rw [List.mem_singleton.mp hxi]
            exact hi
        · intro x hx
          rcases List.mem_append.mp hx with hxd | hxi
          · obtain ⟨p, hp, hr⟩ := hO5 x hxd
            exact Reach.step hp hr
          · rw [List.mem_singleton.mp hxi]
            exact Reach.refl i
        · show (sF.2 ++ [i]).Nodup
          rw [List.nodup_append]
          exact ⟨hFN, List.nodup_singleton i,
            fun x hx hy => by
              rw [List.mem_singleton.mp hy] at hx
              exact hiNotTopoF hx⟩
        · intro x hx
          show x ∈ sF.1
          rcases List.mem_append.mp hx with hxd | hxi
          · exact hFTV x hxd
          · rw [List.mem_singleton.mp hxi]
            exact hiInF
        · intro x hx j hr
          show j ∈ sF.1
          rcases List.mem_append.mp hx with hxd | hxi
          · exact hFCl x hxd j hr
          · rw [List.mem_singleton.mp hxi] at hr
            exact hO6i j hr
        · exact inv_ord_snoc env sF.2 i hFOrd hparF
    refine ⟨hbt, ?_⟩
    intro ps
    induction ps with
    | nil =>
      intro s _ hInv _
      rw [btl_nil]
      exact ⟨[], by simp, fun x => by simp, by simp, by simp, by simp,
        by simp, hInv⟩
    | cons p ps ihps =>
      intro s hps hInv hGrey
      rw [btl_cons]
      have hbtp := hbt p s (hps p (List.mem_cons_self p ps)) hInv
        (fun x hv ht => hGrey x hv ht p (List.mem_cons_self p ps))
      obtain ⟨d1, h11, h12, h13, h14, h15, h16, hInv1⟩ := hbtp
      set s1 := build_topo env (f + 1) p s with hs1
      have hGrey1 : ∀ x, x ∈ s1.1 → x ∉ s1.2 →
          ∀ q ∈ ps, Reach env x q ∧ q < x := by
        intro x hv ht q hq
        have hg := (grey_transfer s s1 d1 h11 h12 h13 x).1 ⟨hv, ht⟩
        exact hGrey x hg.1 hg.2 q (List.mem_cons_of_mem p hq)
      obtain ⟨d2, h21, h22, h23, h24, h25, h26, hInv2⟩ :=
        ihps s1 (fun q hq => hps q (List.mem_cons_of_mem p hq)) hInv1 hGrey1
      set out := buildTopoList env (f + 1) ps s1 with hsOut
      refine ⟨d1 ++ d2, ?_, ?_, ?_, ?_, ?_, ?_, hInv2⟩
      · rw [h21, h11]
        simp
      · intro x
        rw [h22 x, h12 x]
        simp only [List.mem_append]
        tauto
      · intro x hx
        rcases List.mem_append.mp hx with hx1 | hx2
        · exact h13 x hx1
        · intro hxs
          exact h23 x hx2 ((h12 x).2 (Or.inl hxs))
      · intro q hq
        rcases List.mem_cons.mp hq with hqp | hqs
        · subst hqp
          exact (h22 q).2 (Or.inl h14)
        · exact h24 q hqs
      · intro x hx
        rcases List.mem_append.mp hx with hx1 | hx2
        · exact ⟨p, List.mem_cons_self p ps, h15 x hx1⟩
        · obtain ⟨q, hq, hr⟩ := h25 x hx2
          exact ⟨q, List.mem_cons_of_mem p hq, hr⟩
      · intro q hq j hr
        rcases List.mem_cons.mp hq with hqp | hqs
        · subst hqp
          exact (h22 j).2 (Or.inl (h16 j hr))
        · exact h26 q hqs j hr

/-- Correctness of `getparents_topo_sort`, derived from the invariant proof:
no duplicates; membership is exactly reachability from the root; and every
emitted node's parents appear strictly before it. -/
theorem getparents_topo_sort_spec (env : List Value) (root : Nat)
    (hW : WF env) :
    (getparents_topo_sort env root).Nodup ∧
    (∀ j, j ∈ getparents_topo_sort env root ↔ Reach env root j) ∧
    (∀ l1 x l2, getparents_topo_sort env root = l1 ++ x :: l2 →
      ∀ p ∈ (getNode env x).parents, p ∈ l1) := by
  have hWa := WF_all env hW
  have hInv0 : Inv env (([] : List Nat), ([] : List Nat)) := by
    refine ⟨List.nodup_nil, by simp, by simp, ?_⟩
    intro l1 x l2 h
    exact absurd h.symm (by simp)
  have hGrey0 : GreyH env root (([] : List Nat), ([] : List Nat)) := by
    intro x hx
    exact absurd hx (List.not_mem_nil x)
  obtain ⟨d, h1, h2, h3, h4, h5, h6, hInv⟩ :=
    (build_topo_spec env hWa (root + 1)).1 root ([], [])
      (Nat.lt_succ_self root) hInv0 hGrey0
  obtain ⟨hN, hTV, hCl, hOrd⟩ := hInv
  have htd : getparents_topo_sort env root =
      (build_topo env (root + 1) root ([], [])).2 := rfl
  refine ⟨by rw [htd]; exact hN, ?_, ?_⟩
  · intro j
    rw [htd]
    constructor
    · intro hj
      rw [h1] at hj
      exact h5 j (by simpa using hj)
    · intro hr
      have := (h2 j).1 (h6 j hr)
      rw [h1]
      simpa using this.resolve_left (List.not_mem_nil j)
  · intro l1 x l2 hdec
    rw [htd] at hdec
    exact hOrd l1 x l2 hdec

/-! ### Folds of grad updates preserve everything but grads -/

theorem foldl_set0_parents (l : List Nat) (env : List Value) (j : Nat) :
    (getNode (l.foldl (fun e i => set_grad e i 0) env) j).parents =
      (getNode env j).parents := by
  induction l generalizing env with
  | nil => rfl
  | cons a l ih =>
    rw [List.foldl_cons, ih (set_grad env a 0), set_grad_parents]

theorem foldl_set0_data (l : List Nat) (env : List Value) (j : Nat) :
    (getNode (l.foldl (fun e i => set_grad e i 0) env) j).data =
      (getNode env j).data := by
  induction l generalizing env with
  | nil => rfl
  | cons a l ih =>
    rw [List.foldl_cons, ih (set_grad env a 0), set_grad_data]

theorem foldl_set0_bwd (l : List Nat) (env : List Value) (j : Nat) :
    (getNode (l.foldl (fun e i => set_grad e i 0) env) j).bwd =
      (getNode env j).bwd := by
  induction l generalizing env with
  | nil => rfl
  | cons a l ih =>
    rw [List.foldl_cons, ih (set_grad env a 0), set_grad_bwd]

theorem foldl_set0_length (l : List Nat) (env : List Value) :
    (l.foldl (fun e i => set_grad e i 0) env).length = env.length := by
  induction l generalizing env with
  | nil => rfl
  | cons a l ih =>
    rw [List.foldl_cons, ih (set_grad env a 0), set_grad_length]

theorem foldl_set0_grad (l : List Nat) (env : List Value) (j : Nat) :
    (getNode (l.foldl (fun e i => set_grad e i 0) env) j).grad =
      if j ∈ l then 0 else (getNode env j).grad := by
  induction l generalizing env with
  | nil => simp
  | cons a l ih =>
    rw [List.foldl_cons, ih (set_grad env a 0)]
    by_cases hjl : j ∈ l
    · simp [hjl]
    · by_cases hja : j = a
      · subst hja
        simp only [hjl, if_false, List.mem_cons, true_or, if_true]
        by_cases hlen : j < env.length
        · exact set_grad_grad_self env j 0 hlen
        · rw [set_grad_out env j 0 (Nat.le_of_not_lt hlen),
            getNode_out env j (Nat.le_of_not_lt hlen)]
          rfl
      · simp only [hjl, if_false, List.mem_cons, hja, false_or]
        rw [set_grad_grad_ne env a j 0 hja]

theorem foldl_set0_not_mem (l : List Nat) (env : List Value) (j : Nat)
    (h : j ∉ l) :
    getNode (l.foldl (fun e i => set_grad e i 0) env) j = getNode env j := by
  induction l generalizing env with
  | nil => rfl
  | cons a l ih =>
    rw [List.foldl_cons,
      ih (set_grad env a 0) (fun hm => h (List.mem_cons_of_mem a hm)),
      getNode_set_grad_ne env a j 0 (fun he => h (he ▸ List.mem_cons_self a l))]

theorem set_grad_noop (env : List Value) (i : Nat)
    (h : (getNode env i).grad = 0) : set_grad env i 0 = env := by
  unfold set_grad
  induction env generalizing i with
  | nil => rfl
  | cons v rest ih =>
    cases i with
    | zero =>
      have hv : v.grad = 0 := h
      show { v with grad := 0 } :: rest = v :: rest
      cases v
      simp_all
    | succ n =>
      show v :: setGradAt rest n 0 = v :: rest
      rw [ih n h]

theorem foldl_set0_id (l : List Nat) (env : List Value)
    (h : ∀ j ∈ l, (getNode env j).grad = 0) :
    l.foldl (fun e i => set_grad e i 0) env = env := by
  induction l with
  | nil => rfl
  | cons a l ih =>
    rw [List.foldl_cons, set_grad_noop env a (h a (List.mem_cons_self a l))]
    exact ih (fun j hj => h j (List.mem_cons_of_mem a hj))

/-! ### The backward fold preserves everything but grads -/

theorem bwdStep_parents (e : List Value) (i j : Nat) :
    (getNode (bwdStep e i) j).parents = (getNode e j).parents :=
  runBwd_parents e _ _ j

theorem bwdStep_data (e : List Value) (i j : Nat) :
    (getNode (bwdStep e i) j).data = (getNode e j).data :=
  runBwd_data e _ _ j

theorem bwdStep_bwd (e : List Value) (i j : Nat) :
    (getNode (bwdStep e i) j).bwd = (getNode e j).bwd :=
  runBwd_bwd e _ _ j

theorem foldl_bwdStep_grad_not_target (l : List Nat) (e : List Value)
    (r : Nat) (h : ∀ i ∈ l, r ∉ bwdTargets (getNode e i).bwd) :
    (getNode (l.foldl bwdStep e) r).grad = (getNode e r).grad := by
  induction l generalizing e with
  | nil => rfl
  | cons a l ih =>
    rw [List.foldl_cons]
    rw [ih (bwdStep e a) ?_]
    · exact runBwd_grad_not_target e _ _ r (h a (List.mem_cons_self a l))
    · intro i hi
      rw [bwdStep_bwd]
      exact h i (List.mem_cons_of_mem a hi)

/-! ### `clear_grads` and `backward`: structural consequences -/

theorem clear_grads_parents (env : List Value) (r j : Nat) :
    (getNode (clear_grads env r) j).parents = (getNode env j).parents :=
  foldl_set0_parents _ env j

theorem clear_grads_bwd (env : List Value) (r j : Nat) :
    (getNode (clear_grads env r) j).bwd = (getNode env j).bwd :=
  foldl_set0_bwd _ env j

theorem clear_grads_length (env : List Value) (r : Nat) :
    (clear_grads env r).length = env.length :=
  foldl_set0_length _ env

/-- The arena seen by the second topological sort inside `backward` (after
clearing and seeding) has the same parent structure as the original. -/
theorem seeded_parentsEq (env : List Value) (r : Nat) :
    parentsEq (set_grad (clear_grads env r) r 1) env := by
  intro j
  rw [set_grad_parents, clear_grads_parents]

theorem backward_eq_fold (env : List Value) (r : Nat) :
    backward env r =
      ((getparents_topo_sort env r).reverse).foldl bwdStep
        (set_grad (clear_grads env r) r 1) := by
  show ((getparents_topo_sort (set_grad (clear_grads env r) r 1) r).reverse).foldl
      bwdStep (set_grad (clear_grads env r) r 1) = _
  rw [getparents_topo_sort_congr _ env (seeded_parentsEq env r) r]

theorem set_grad_operation (env : List Value) (i : Nat) (g : ℚ) (j : Nat) :
    (getNode (set_grad env i g) j).operation = (getNode env j).operation := by
  by_cases hj : j = i
  · subst hj
    by_cases hl : j < env.length
    · rw [getNode_set_grad_self env j g hl]
    · rw [set_grad_out env j g (Nat.le_of_not_lt hl)]
  · rw [getNode_set_grad_ne env i j g hj]

theorem foldl_set0_operation (l : List Nat) (env : List Value) (j : Nat) :
    (getNode (l.foldl (fun e i => set_grad e i 0) env) j).operation =
      (getNode env j).operation := by
  induction l generalizing env with
  | nil => rfl
  | cons a l ih =>
    rw [List.foldl_cons, ih (set_grad env a 0), set_grad_operation]

theorem getNode_append_self (env : List Value) (v : Value) :
    getNode (env ++ [v]) env.length = v := by
  induction env with
  | nil => rfl
  | cons w rest ih => simpa [getNode] using ih

theorem if_pos_eq_max (x : ℚ) : (if 0 < x then x else 0) = max 0 x := by
  rcases lt_or_le 0 x with h | h
  · rw [if_pos h, max_eq_right h.le]
  · rw [if_neg (not_lt.mpr h), max_eq_left h]

/-! ## The claims -/

/-- C10: `PartialEq for Value` compares only the stored `data`: equality
holds iff the `data` fields agree, ignoring grad, operation tag, parent
list and rule; two independently built nodes with the same number compare
equal, and a node stays equal to itself across any grad change. -/
theorem value_eq_data_only :
    (∀ v w : Value, valueEq v w = true ↔ v.data = w.data) ∧
    (∀ (d g1 g2 : ℚ) (o1 o2 : String) (p1 p2 : List Nat) (b1 b2 : BwdRule),
      valueEq ⟨d, g1, o1, p1, b1⟩ ⟨d, g2, o2, p2, b2⟩ = true) ∧
    (∀ (v : Value) (g : ℚ), valueEq v { v with grad := g } = true) := by
  refine ⟨?_, ?_, ?_⟩ <;> simp [valueEq]

/-- C8: `relu` produces a node whose data is `max 0 a.data`, whose parents
are `[a]`, whose bound rule captured `a` and the snapshot of `a.data`; the
rule routes the upstream gradient into `a` exactly when that snapshot is
positive (zero routes nothing); consequently backward on `relu` of a fresh
leaf leaves gradient 1 if the leaf is positive, else 0. -/
theorem relu_spec :
    (∀ (env : List Value) (a : Nat),
      (getNode (reluOp env a).2 (reluOp env a).1).data =
        max 0 (getNode env a).data ∧
      (getNode (reluOp env a).2 (reluOp env a).1).parents = [a] ∧
      (getNode (reluOp env a).2 (reluOp env a).1).bwd =
        BwdRule.reluB a (getNode env a).data) ∧
    (∀ (env : List Value) (a : Nat) (sd g : ℚ),
      runBwd env (BwdRule.reluB a sd) g =
        add_to_grad env a (if 0 < sd then g else 0)) ∧
    (∀ q : ℚ,
      (getNode (backward (reluOp (valueNew [] q).2 0).2 1) 0).grad =
        if 0 < q then 1 else 0) := by
  refine ⟨?_, fun env a sd g => rfl, ?_⟩
  · intro env a
    refine ⟨?_, ?_, ?_⟩ <;>
      simp only [reluOp, getNode_append_self]
    exact if_pos_eq_max (getNode env a).data
  · intro q
    by_cases h : (0 : ℚ) < q <;>
    · simp [backward, clear_grads, getparents_topo_sort, build_topo,
        buildTopoList, bwdStep, runBwd, add_to_grad, set_grad, setGradAt,
        getNode, valueNew, reluOp, h]

/-- C6: gradient accumulation is additive under aliasing: in `c = a + a`
the same node is both parents, and backward yields `a.grad = 2`; in
`c = a * a` backward yields `a.grad = 2 * a.value`. -/
theorem aliasing_grads_accumulate (q : ℚ) :
    (getNode (addOp (valueNew [] q).2 0 0).2 1).parents = [0, 0] ∧
    (getNode (backward (addOp (valueNew [] q).2 0 0).2 1) 0).grad = 2 ∧
    (getNode (backward (mulOp (valueNew [] q).2 0 0).2 1) 0).grad = 2 * q := by
  refine ⟨rfl, ?_, ?_⟩ <;>
  · simp [backward, clear_grads, getparents_topo_sort, build_topo,
      buildTopoList, bwdStep, runBwd, add_to_grad, set_grad, setGradAt,
      getNode, valueNew, addOp, mulOp]
    ring

/-- C5: the topological sort emits each node reachable from the root
exactly once (no duplicates, membership is exactly reachability — keyed by
node identity, i.e. arena index, so distinct nodes with equal values are
both emitted and an aliased node is emitted once), and every emitted node's
parents appear strictly before it.  Mutation-freedom is structural: the
traversal returns a list of handles and leaves the arena untouched. -/
theorem topo_sort_correct (env : List Value) (root : Nat) (hW : WF env) :
    (getparents_topo_sort env root).Nodup ∧
    (∀ j, j ∈ getparents_topo_sort env root ↔ Reach env root j) ∧
    (∀ l1 x l2, getparents_topo_sort env root = l1 ++ x :: l2 →
      ∀ p ∈ (getNode env x).parents, p ∈ l1) :=
  getparents_topo_sort_spec env root hW

/-- Witness for C5 at a concrete graph with two equal-valued distinct
leaves and an aliased self-sum. -/
theorem topo_sort_correct_witness :
    WF tsEnv ∧
    ((getparents_topo_sort tsEnv 3).Nodup ∧
     (∀ j, j ∈ getparents_topo_sort tsEnv 3 ↔ Reach tsEnv 3 j) ∧
     (∀ l1 x l2, getparents_topo_sort tsEnv 3 = l1 ++ x :: l2 →
       ∀ p ∈ (getNode tsEnv x).parents, p ∈ l1)) :=
  ⟨by decide, topo_sort_correct tsEnv 3 (by decide)⟩

/-- C9: `clear_grads` zeroes the grad of every node reachable from the
root, changes no other field anywhere, leaves unreachable nodes entirely
untouched, and is idempotent. -/
theorem clear_grads_spec (env : List Value) (r : Nat) (hW : WF env) :
    (∀ j, Reach env r j → (getNode (clear_grads env r) j).grad = 0) ∧
    (∀ j, (getNode (clear_grads env r) j).data = (getNode env j).data ∧
      (getNode (clear_grads env r) j).parents = (getNode env j).parents ∧
      (getNode (clear_grads env r) j).operation =
        (getNode env j).operation ∧
      (getNode (clear_grads env r) j).bwd = (getNode env j).bwd) ∧
    (∀ j, ¬ Reach env r j →
      getNode (clear_grads env r) j = getNode env j) ∧
    clear_grads (clear_grads env r) r = clear_grads env r := by
  have hspec := getparents_topo_sort_spec env r hW
  have hz : ∀ j ∈ getparents_topo_sort env r,
      (getNode (clear_grads env r) j).grad = 0 := by
    intro j hj
    show (getNode ((getparents_topo_sort env r).foldl
      (fun e i => set_grad e i 0) env) j).grad = 0
    rw [foldl_set0_grad, if_pos hj]
  refine ⟨?_, ?_, ?_, ?_⟩
  · intro j hr
    exact hz j ((hspec.2.1 j).2 hr)
  · intro j
    exact ⟨foldl_set0_data _ env j, foldl_set0_parents _ env j,
      foldl_set0_operation _ env j, foldl_set0_bwd _ env j⟩
  · intro j hr
    exact foldl_set0_not_mem _ env j (fun hm => hr ((hspec.2.1 j).1 hm))
  · have hpe : parentsEq (clear_grads env r) env :=
      fun j => clear_grads_parents env r j
    calc clear_grads (clear_grads env r) r
        = (getparents_topo_sort (clear_grads env r) r).foldl
            (fun e i => set_grad e i 0) (clear_grads env r) := rfl
      _ = (getparents_topo_sort env r).foldl
            (fun e i => set_grad e i 0) (clear_grads env r) := by
            rw [getparents_topo_sort_congr _ env hpe r]
      _ = clear_grads env r := foldl_set0_id _ _ hz

/-- Witness for C9 at a concrete two-node graph carrying stale nonzero
grads. -/
theorem clear_grads_spec_witness :
    WF rgEnv ∧
    ((∀ j, Reach rgEnv 1 j → (getNode (clear_grads rgEnv 1) j).grad = 0) ∧
     (∀ j, (getNode (clear_grads rgEnv 1) j).data = (getNode rgEnv j).data ∧
       (getNode (clear_grads rgEnv 1) j).parents = (getNode rgEnv j).parents ∧
       (getNode (clear_grads rgEnv 1) j).operation =
         (getNode rgEnv j).operation ∧
       (getNode (clear_grads rgEnv 1) j).bwd = (getNode rgEnv j).bwd) ∧
     (∀ j, ¬ Reach rgEnv 1 j →
       getNode (clear_grads rgEnv 1) j = getNode rgEnv j) ∧
     clear_grads (clear_grads rgEnv 1) 1 = clear_grads rgEnv 1) :=
  ⟨by decide, clear_grads_spec rgEnv 1 (by decide)⟩

/-- C1: `backward` is exactly: reset all reachable grads, seed the root
with 1, then replay the topological order in reverse, feeding each node's
closure its current grad (first conjunct — the recomputed order coincides
with the original one because grad updates never touch parents);
consequently, when the root is not a parent of any reachable node, its grad
is still 1 afterwards (second conjunct). -/
theorem backward_resets_seeds_and_replays (env : List Value) (r : Nat)
    (hW : WF env) (hG : GoodEnv env) (hr : r < env.length)
    (hnp : ∀ j ∈ getparents_topo_sort env r, r ∉ (getNode env j).parents) :
    backward env r =
      ((getparents_topo_sort env r).reverse).foldl bwdStep
        (set_grad (clear_grads env r) r 1) ∧
    (getNode (backward env r) r).grad = 1 := by
  refine ⟨backward_eq_fold env r, ?_⟩
  rw [backward_eq_fold env r]
  have hside : ∀ i ∈ (getparents_topo_sort env r).reverse,
      r ∉ bwdTargets (getNode (set_grad (clear_grads env r) r 1) i).bwd := by
    intro i hi
    have hiT : i ∈ getparents_topo_sort env r := List.mem_reverse.mp hi
    have hreach : Reach env r i :=
      ((getparents_topo_sort_spec env r hW).2.1 i).1 hiT
    have hilen : i < env.length :=
      Nat.lt_of_le_of_lt (reach_le env (WF_all env hW) hreach) hr
    have hbwd : (getNode (set_grad (clear_grads env r) r 1) i).bwd =
        (getNode env i).bwd := by
      rw [set_grad_bwd, clear_grads_bwd]
    rw [hbwd]
    intro htarget
    exact hnp i hiT (hG i hilen r htarget)
  rw [foldl_bwdStep_grad_not_target _ _ r hside]
  have hlen : r < (clear_grads env r).length := by
    rw [clear_grads_length]
    exact hr
  exact set_grad_grad_self _ r 1 hlen

/-- Witness for C1 at the concrete sum graph `bwEnv` with root 2. -/
theorem backward_resets_witness :
    WF bwEnv ∧ GoodEnv bwEnv ∧ 2 < bwEnv.length ∧
    (∀ j ∈ getparents_topo_sort bwEnv 2, 2 ∉ (getNode bwEnv j).parents) ∧
    (backward bwEnv 2 =
      ((getparents_topo_sort bwEnv 2).reverse).foldl bwdStep
        (set_grad (clear_grads bwEnv 2) 2 1) ∧
     (getNode (backward bwEnv 2) 2).grad = 1) := by
  have h4 : ∀ j ∈ getparents_topo_sort bwEnv 2,
      2 ∉ (getNode bwEnv j).parents := by
    simp [getparents_topo_sort, build_topo, buildTopoList, bwEnv, valueNew,
      addOp, getNode]
  exact ⟨by decide, by decide, by decide, h4,
    backward_resets_seeds_and_replays bwEnv 2 (by decide) (by decide)
      (by decide) h4⟩

/-- C2: the source `Neg` builds a disconnected node — `data` is indeed
`-a.data` but the parent list is empty and the closure is a no-op, so
backward on `-a` leaves `a.grad = 0` (the claim expects parents `[a]` and
`a.grad = -1`). -/
theorem neg_disconnected_eval :
    (getNode negEnv 1).data = -2 ∧
    (getNode negEnv 1).parents = [] ∧
    (getNode negEnv 1).bwd = BwdRule.noop ∧
    (getNode (backward negEnv 1) 0).grad = 0 := by
  refine ⟨?_, rfl, rfl, ?_⟩
  · norm_num [negEnv, negOp, valueNew, getNode]
  · simp [negEnv, backward, clear_grads, getparents_topo_sort, build_topo,
      buildTopoList, bwdStep, runBwd, add_to_grad, set_grad, setGradAt,
      getNode, valueNew, negOp]

/-- C3: the source `pow` builds a disconnected node — `data` is
`a.data ^ e` but the parent list is empty and the closure is a no-op, so
backward on `a.pow(3)` with `a = 2` leaves `a.grad = 0` (the claim expects
parents `[a]` and `a.grad = 3 * 2^2 = 12`). -/
theorem pow_disconnected_eval :
    (getNode powEnv 1).data = 8 ∧
    (getNode powEnv 1).parents = [] ∧
    (getNode powEnv 1).bwd = BwdRule.noop ∧
    (getNode (backward powEnv 1) 0).grad = 0 := by
  refine ⟨?_, rfl, rfl, ?_⟩
  · norm_num [powEnv, powOp, valueNew, getNode]
  · simp [powEnv, backward, clear_grads, getparents_topo_sort, build_topo,
      buildTopoList, bwdStep, runBwd, add_to_grad, set_grad, setGradAt,
      getNode, valueNew, powOp]

/-- C4: `a - b` and `a / b` do build composite graphs — the outer Add/Mul
node has the Neg/Pow node as its second parent and the round-trip values
hold (`(a-b).data = 1`, `(a/b).data = 3/2`, `(a-a).data = 0`,
`(a/a).data = 1` for `a = 3, b = 2`) — but the inner Neg/Pow node is
disconnected (no parents), so after backward `b.grad = 0`, not the claimed
`-1` resp. `-a/b² = -3/4`; `a.grad` is 1 resp. `1/2` as claimed. -/
theorem sub_div_composite_eval :
    (getNode subEnv 3).data = 1 ∧
    (getNode subEnv 3).parents = [0, 2] ∧
    (getNode subEnv 2).data = -2 ∧
    (getNode subEnv 2).parents = [] ∧
    (getNode (backward subEnv 3) 0).grad = 1 ∧
    (getNode (backward subEnv 3) 1).grad = 0 ∧
    (getNode divEnv 3).data = 3 / 2 ∧
    (getNode divEnv 3).parents = [0, 2] ∧
    (getNode divEnv 2).parents = [] ∧
    (getNode (backward divEnv 3) 0).grad = 1 / 2 ∧
    (getNode (backward divEnv 3) 1).grad = 0 ∧
    (getNode subSelfEnv 3).data = 0 ∧
    (getNode divSelfEnv 3).data = 1 := by
  refine ⟨?_, rfl, ?_, rfl, ?_, ?_, ?_, rfl, rfl, ?_, ?_, ?_, ?_⟩ <;>
    simp [subEnv, divEnv, subSelfEnv, divSelfEnv, abEnv, backward,
      clear_grads, getparents_topo_sort, build_topo, buildTopoList, bwdStep,
      runBwd, add_to_grad, set_grad, setGradAt, getNode, valueNew, negOp,
      powOp, addOp, mulOp, subOp, divOp] <;>
    norm_num

/-- C7: the end-to-end scenario: values `y = 5`, `k = 10`, `result = 50`,
and after backward on `result` the leaf grads are `x: 30`, `w: 20`,
`b: 10`, `i: 20`, `j: 15/2`. -/
theorem end_to_end_scenario :
    (getNode scEnv 6).data = 5 ∧
    (getNode scEnv 9).data = 10 ∧
    (getNode scEnv 10).data = 50 ∧
    (getNode (backward scEnv 10) 0).grad = 30 ∧
    (getNode (backward scEnv 10) 1).grad = 20 ∧
    (getNode (backward scEnv 10) 2).grad = 10 ∧
    (getNode (backward scEnv 10) 3).grad = 20 ∧
    (getNode (backward scEnv 10) 4).grad = 15 / 2 := by
  refine ⟨?_, ?_, ?_, ?_, ?_, ?_, ?_, ?_⟩ <;>
  · simp [scEnv, scEnv9, scEnv8, scEnv7, scEnv6, scEnv5, scEnv4, scEnv3,
      scEnv2, scEnv1, scEnv0, backward, clear_grads, getparents_topo_sort,
      build_topo, buildTopoList, bwdStep, runBwd, add_to_grad, set_grad,
      setGradAt, getNode, valueNew, addOp, mulOp]
    norm_num

end Micrograd
